import Mathlib

/-!
Shallow embedding of `unsafecache.go` (package `unsafecache`): a K/V cache
with per-item expiration (`Cache`) and an LRU cache (`LRUCache`).

Modelling conventions:
* Keys and stored non-numeric payloads are represented by `Nat` tags; the Go
  code only compares keys for equality.
* `time.Time` instants and `time.Duration` values are modelled as `Int`
  (nanoseconds); `t.Before(u)` is `t < u`.  Operations that call `time.Now()`
  take the current instant `now` as an explicit argument.
* Go's dynamically-typed `interface{}` numeric payloads are a tagged variant
  `GoValue` over the integer kinds recognised by `Increment`/`Decrement`;
  fixed-width machine arithmetic is `Int` arithmetic reduced by `wrapS`
  (two's-complement signed) or `wrapU` (unsigned), with `int`, `uint` and
  `uintptr` taken to be 64 bits wide.
* The Go map `map[interface{}]*Item` is an association list; in-place update
  through the `*Item` pointer is replacement of the entry at its key.
-/

namespace Unsafecache

/-- Unsigned fixed-width reduction: the value of an `w`-bit unsigned word. -/
def wrapU (w : Nat) (n : Int) : Int := n % (2 ^ w : Int)

/-- Signed two's-complement fixed-width reduction to `w` bits. -/
def wrapS (w : Nat) (n : Int) : Int :=
  (n + 2 ^ (w - 1)) % (2 ^ w : Int) - 2 ^ (w - 1)

/-- Dynamic value stored in a cache item: one constructor per integer kind
recognised by `Increment`/`Decrement`, and `vOther` for every other dynamic
type (strings, structs, ...), identified by a tag. -/
inductive GoValue where
  | vInt (n : Int)
  | vInt8 (n : Int)
  | vInt16 (n : Int)
  | vInt32 (n : Int)
  | vInt64 (n : Int)
  | vUint (n : Int)
  | vUint8 (n : Int)
  | vUint16 (n : Int)
  | vUint32 (n : Int)
  | vUint64 (n : Int)
  | vUintptr (n : Int)
  | vOther (tag : Nat)
  deriving DecidableEq, Repr

/-- True on the integer kinds handled by the `switch` in `Increment` and
`Decrement`, false on the `default` branch. -/
def GoValue.isIntKind : GoValue → Bool
  | .vOther _ => false
  | _ => true

/-- Embeds `Item`: `Object` plus optional absolute expiration instant
(`Expiration *time.Time`, with `nil` as `none`). -/
structure Item where
  object : GoValue
  expiration : Option Int
  deriving DecidableEq, Repr

/-- Embeds `Item.Expired`: false when `Expiration == nil`, otherwise
`item.Expiration.Before(time.Now())`, i.e. expiration strictly before `now`. -/
def Item.Expired (item : Item) (now : Int) : Bool :=
  match item.expiration with
  | none => false
  | some t => decide (t < now)

/-- Embeds `Cache`: the `items` map as an association list plus
`defaultExpiration`. -/
structure Cache where
  items : List (Nat × Item)
  defaultExpiration : Int
  deriving DecidableEq, Repr

/-- Lookup in the embedded Go map (`c.items[key]`). -/
def lookup (items : List (Nat × Item)) (key : Nat) : Option Item :=
  match items.find? (fun p => p.1 == key) with
  | some p => some p.2
  | none => none

/-- Map store (`c.items[key] = ...`): replace the entry at `key` if present,
otherwise append a fresh one. -/
def setAssoc (items : List (Nat × Item)) (key : Nat) (it : Item) :
    List (Nat × Item) :=
  match items with
  | [] => [(key, it)]
  | p :: rest =>
    if p.1 == key then (key, it) :: rest else p :: setAssoc rest key it

/-- Embeds `New`: empty map with the given default expiration (the background
sweeping goroutine is outside the model; `DeleteExpired` is explicit). -/
def Cache.New (defaultExpiration : Int) : Cache :=
  { items := [], defaultExpiration := defaultExpiration }

/-- Embeds `Cache.Get`: not-found when the key is missing or the item is
expired at `now`, otherwise the stored object. -/
def Cache.Get (c : Cache) (key : Nat) (now : Int) : Option GoValue × Bool :=
  match lookup c.items key with
  | none => (none, false)
  | some item =>
    if item.Expired now then (none, false) else (some item.object, true)

/-- Embeds `Cache.Set`: a zero duration falls back to `defaultExpiration`; a
positive resulting duration stores the absolute deadline `now + dur`, any
other duration stores no deadline. -/
def Cache.Set (c : Cache) (key : Nat) (val : GoValue) (dur now : Int) :
    Cache :=
  let d := if dur == 0 then c.defaultExpiration else dur
  let t : Option Int := if d > 0 then some (now + d) else none
  { c with items := setAssoc c.items key { object := val, expiration := t } }

/-- Embeds `Cache.Delete`. -/
def Cache.Delete (c : Cache) (key : Nat) : Cache :=
  { c with items := c.items.eraseP (fun p => p.1 == key) }

/-- Embeds `Cache.Flush`. -/
def Cache.Flush (c : Cache) : Cache :=
  { c with items := [] }

/-- Embeds `Cache.ItemCount`. -/
def Cache.ItemCount (c : Cache) : Int :=
  c.items.length

/-- Embeds `Cache.DumpKeys` (every key in the model is non-nil, so the
`k != nil` filter keeps everything). -/
def Cache.DumpKeys (c : Cache) : List Nat :=
  c.items.map Prod.fst

/-- Embeds `Cache.DeleteExpired`: delete every item expired at `now`. -/
def Cache.DeleteExpired (c : Cache) (now : Int) : Cache :=
  { c with items := c.items.filter (fun p => !(p.2.Expired now)) }

/-- Error results of `Increment`/`Decrement`: `notFound` embeds
`"Item %s not found"`, `typeError` embeds `"The value type error"`. -/
inductive CacheError where
  | notFound
  | typeError
  deriving DecidableEq, Repr

/-- Per-kind addition of the `switch` in `Cache.Increment`: each case converts
the `int64` delta to the stored kind and adds in that kind, e.g.
`val.Object.(int8) + int8(x)`. -/
def goIncVal : GoValue → Int → Option GoValue
  | .vInt n, x => some (.vInt (wrapS 64 (n + wrapS 64 x)))
  | .vInt8 n, x => some (.vInt8 (wrapS 8 (n + wrapS 8 x)))
  | .vInt16 n, x => some (.vInt16 (wrapS 16 (n + wrapS 16 x)))
  | .vInt32 n, x => some (.vInt32 (wrapS 32 (n + wrapS 32 x)))
  | .vInt64 n, x => some (.vInt64 (wrapS 64 (n + x)))
  | .vUint n, x => some (.vUint (wrapU 64 (n + wrapU 64 x)))
  | .vUint8 n, x => some (.vUint8 (wrapU 8 (n + wrapU 8 x)))
  | .vUint16 n, x => some (.vUint16 (wrapU 16 (n + wrapU 16 x)))
  | .vUint32 n, x => some (.vUint32 (wrapU 32 (n + wrapU 32 x)))
  | .vUint64 n, x => some (.vUint64 (wrapU 64 (n + wrapU 64 x)))
  | .vUintptr n, x => some (.vUintptr (wrapU 64 (n + wrapU 64 x)))
  | .vOther _, _ => none

/-- Per-kind subtraction of the `switch` in `Cache.Decrement`. -/
def goDecVal : GoValue → Int → Option GoValue
  | .vInt n, x => some (.vInt (wrapS 64 (n - wrapS 64 x)))
  | .vInt8 n, x => some (.vInt8 (wrapS 8 (n - wrapS 8 x)))
  | .vInt16 n, x => some (.vInt16 (wrapS 16 (n - wrapS 16 x)))
  | .vInt32 n, x => some (.vInt32 (wrapS 32 (n - wrapS 32 x)))
  | .vInt64 n, x => some (.vInt64 (wrapS 64 (n - x)))
  | .vUint n, x => some (.vUint (wrapU 64 (n - wrapU 64 x)))
  | .vUint8 n, x => some (.vUint8 (wrapU 8 (n - wrapU 8 x)))
  | .vUint16 n, x => some (.vUint16 (wrapU 16 (n - wrapU 16 x)))
  | .vUint32 n, x => some (.vUint32 (wrapU 32 (n - wrapU 32 x)))
  | .vUint64 n, x => some (.vUint64 (wrapU 64 (n - wrapU 64 x)))
  | .vUintptr n, x => some (.vUintptr (wrapU 64 (n - wrapU 64 x)))
  | .vOther _, _ => none

/-- Embeds `Cache.Increment`: not-found when the key is missing or expired,
type error on a non-integer kind, otherwise the item's object is replaced in
place (expiration untouched). -/
def Cache.Increment (c : Cache) (key : Nat) (x : Int) (now : Int) :
    Option CacheError × Cache :=
  match lookup c.items key with
  | none => (some .notFound, c)
  | some val =>
    if val.Expired now then (some .notFound, c)
    else
      match goIncVal val.object x with
      | none => (some .typeError, c)
      | some v =>
        let upd := setAssoc c.items key { object := v, expiration := val.expiration }
        (none, { c with items := upd })

/-- Embeds `Cache.Decrement`, the subtraction twin of `Cache.Increment`. -/
def Cache.Decrement (c : Cache) (key : Nat) (x : Int) (now : Int) :
    Option CacheError × Cache :=
  match lookup c.items key with
  | none => (some .notFound, c)
  | some val =>
    if val.Expired now then (some .notFound, c)
    else
      match goDecVal val.object x with
      | none => (some .typeError, c)
      | some v =>
        let upd := setAssoc c.items key { object := v, expiration := val.expiration }
        (none, { c with items := upd })

/-- Embeds `LRUCache`: `maxEntries`, the key set of the `items` map
(`map[interface{}]*list.Element`, each key mapping to the unique list node
holding it), and `cacheList` with the most-recently-used node first.  Pointer
identity of `*list.Element` is rendered by locating a node through its key,
which is valid under the map/list coherence invariant the code maintains. -/
structure LRUCache where
  maxEntries : Int
  itemsKeys : List Nat
  cacheList : List (Nat × Nat)
  deriving DecidableEq, Repr

/-- Embeds `NewLRU`: rejects a negative size, otherwise an empty cache. -/
def NewLRU (size : Int) : Option LRUCache :=
  if size < 0 then none
  else some { maxEntries := size, itemsKeys := [], cacheList := [] }

/-- Removal of the list node holding `key` (`cacheList.Remove(e)` for the
element the map points to). -/
def eraseKey (key : Nat) (l : List (Nat × Nat)) : List (Nat × Nat) :=
  l.eraseP (fun p => p.1 == key)

/-- Embeds `LRUCache.removeOldestElement` (with `removeElement` inlined on the
back node): drop the back of `cacheList` and delete its key from the map. -/
def LRUCache.removeOldestElement (c : LRUCache) : LRUCache :=
  match c.cacheList.getLast? with
  | none => c
  | some ent =>
    { c with itemsKeys := c.itemsKeys.erase ent.1,
             cacheList := c.cacheList.dropLast }

/-- Embeds `LRUCache.Add`: on a hit, move the node to the front and overwrite
its value; on a miss, push a fresh node to the front, register the key, and
evict the oldest node if a positive `maxEntries` is exceeded. -/
def LRUCache.Add (c : LRUCache) (key value : Nat) : LRUCache :=
  if key ∈ c.itemsKeys then
    { c with cacheList := (key, value) :: eraseKey key c.cacheList }
  else if 0 < c.maxEntries ∧
      c.maxEntries < ((((key, value) :: c.cacheList).length : Nat) : Int) then
    (⟨c.maxEntries, key :: c.itemsKeys,
      (key, value) :: c.cacheList⟩ : LRUCache).removeOldestElement
  else
    ⟨c.maxEntries, key :: c.itemsKeys, (key, value) :: c.cacheList⟩

/-- Embeds `LRUCache.Get`: on a hit, move the node to the front and return its
value.  The inner `none` branch (key indexed but absent from the list) is
unreachable under the coherence invariant. -/
def LRUCache.Get (c : LRUCache) (key : Nat) :
    (Option Nat × Bool) × LRUCache :=
  if key ∈ c.itemsKeys then
    match c.cacheList.find? (fun p => p.1 == key) with
    | some p =>
      ((some p.2, true),
        { c with cacheList := (key, p.2) :: eraseKey key c.cacheList })
    | none => ((none, false), c)
  else ((none, false), c)

/-- Embeds `LRUCache.Remove` (with `removeElement` inlined on the node holding
`key`): a hit removes the node and the index entry, a miss is a no-op. -/
def LRUCache.Remove (c : LRUCache) (key : Nat) : LRUCache :=
  if key ∈ c.itemsKeys then
    { c with itemsKeys := c.itemsKeys.erase key,
             cacheList := eraseKey key c.cacheList }
  else c

/-- Embeds `LRUCache.Len`. -/
def LRUCache.Len (c : LRUCache) : Int :=
  c.cacheList.length

/-- Embeds `LRUCache.Clear`: fresh list and map, `maxEntries` kept. -/
def LRUCache.Clear (c : LRUCache) : LRUCache :=
  { c with itemsKeys := [], cacheList := [] }

/-- Embeds `LRUCache.SetMaxEntries`: rejects a negative limit leaving the
cache untouched, otherwise replaces `maxEntries` only. -/
def LRUCache.SetMaxEntries (c : LRUCache) (max : Int) : Bool × LRUCache :=
  if max < 0 then (false, c) else (true, { c with maxEntries := max })

/-- Embeds `LRUCache.DumpKeys` (no key in the model is nil). -/
def LRUCache.DumpKeys (c : LRUCache) : List Nat :=
  c.itemsKeys

/-- Coherence invariant of an `LRUCache`: the index map and the recency list
carry exactly the same keys, with no key duplicated on either side — so each
indexed key identifies the unique list node holding it. -/
def LRUInv (c : LRUCache) : Prop :=
  c.itemsKeys.Nodup ∧ (c.cacheList.map Prod.fst).Nodup ∧
  (∀ k ∈ c.itemsKeys, k ∈ c.cacheList.map Prod.fst) ∧
  (∀ k ∈ c.cacheList.map Prod.fst, k ∈ c.itemsKeys)

instance (c : LRUCache) : Decidable (LRUInv c) := by
  unfold LRUInv; infer_instance

/-- Mutating LRU operations other than `SetMaxEntries`. -/
inductive LRUOp where
  | add (key value : Nat)
  | get (key : Nat)
  | remove (key : Nat)
  | clear
  deriving DecidableEq, Repr

/-- Run one operation against the cache state. -/
def applyOp (c : LRUCache) : LRUOp → LRUCache
  | .add k v => c.Add k v
  | .get k => (c.Get k).2
  | .remove k => c.Remove k
  | .clear => c.Clear

/-- Run a sequence of operations left to right. -/
def applyOps (c : LRUCache) (ops : List LRUOp) : LRUCache :=
  ops.foldl applyOp c

/-- Fold a list of key/value pairs through `LRUCache.Add`. -/
def addAll (c : LRUCache) (ps : List (Nat × Nat)) : LRUCache :=
  ps.foldl (fun acc p => acc.Add p.1 p.2) c

/-- Specification-side increment: value plus delta computed in the value's
original integer kind with that kind's fixed-width wraparound, the stored
kind preserved; `none` on a non-integer kind. -/
def specIncVal : GoValue → Int → Option GoValue
  | .vInt n, x => some (.vInt (wrapS 64 (n + x)))
  | .vInt8 n, x => some (.vInt8 (wrapS 8 (n + x)))
  | .vInt16 n, x => some (.vInt16 (wrapS 16 (n + x)))
  | .vInt32 n, x => some (.vInt32 (wrapS 32 (n + x)))
  | .vInt64 n, x => some (.vInt64 (wrapS 64 (n + x)))
  | .vUint n, x => some (.vUint (wrapU 64 (n + x)))
  | .vUint8 n, x => some (.vUint8 (wrapU 8 (n + x)))
  | .vUint16 n, x => some (.vUint16 (wrapU 16 (n + x)))
  | .vUint32 n, x => some (.vUint32 (wrapU 32 (n + x)))
  | .vUint64 n, x => some (.vUint64 (wrapU 64 (n + x)))
  | .vUintptr n, x => some (.vUintptr (wrapU 64 (n + x)))
  | .vOther _, _ => none

/-- Specification-side decrement, the subtraction twin of `specIncVal`. -/
def specDecVal : GoValue → Int → Option GoValue
  | .vInt n, x => some (.vInt (wrapS 64 (n - x)))
  | .vInt8 n, x => some (.vInt8 (wrapS 8 (n - x)))
  | .vInt16 n, x => some (.vInt16 (wrapS 16 (n - x)))
  | .vInt32 n, x => some (.vInt32 (wrapS 32 (n - x)))
  | .vInt64 n, x => some (.vInt64 (wrapS 64 (n - x)))
  | .vUint n, x => some (.vUint (wrapU 64 (n - x)))
  | .vUint8 n, x => some (.vUint8 (wrapU 8 (n - x)))
  | .vUint16 n, x => some (.vUint16 (wrapU 16 (n - x)))
  | .vUint32 n, x => some (.vUint32 (wrapU 32 (n - x)))
  | .vUint64 n, x => some (.vUint64 (wrapU 64 (n - x)))
  | .vUintptr n, x => some (.vUintptr (wrapU 64 (n - x)))
  | .vOther _, _ => none

/-- Concrete freshly constructed LRU cache of capacity 2, used in closed
statements. -/
def lruFresh2 : LRUCache := { maxEntries := 2, itemsKeys := [], cacheList := [] }

/-- Concrete LRU cache of capacity 1 holding key 5, used in closed
statements. -/
def lruOne : LRUCache :=
  { maxEntries := 1, itemsKeys := [5], cacheList := [(5, 50)] }

/-- Concrete item expiring at instant 5, used in closed statements. -/
def itemExp5 : Item := { object := .vInt 7, expiration := some 5 }

/-- Concrete one-entry cache holding `itemExp5` at key 0. -/
def cacheExp5 : Cache := { items := [(0, itemExp5)], defaultExpiration := 0 }

/-- Concrete item holding the `int32` value 5, used in closed statements. -/
def item32 : Item := { object := .vInt32 5, expiration := none }

/-- Concrete one-entry cache holding `item32` at key 0. -/
def cache32 : Cache := { items := [(0, item32)], defaultExpiration := 0 }

/-- Concrete empty cache, used in closed statements. -/
def cacheEmpty : Cache := { items := [], defaultExpiration := 0 }

/-! ### Arithmetic facts about fixed-width wrapping -/

theorem add_emod_emod_right (a b m : Int) : (a + b % m) % m = (a + b) % m := by
  conv_rhs => rw [Int.add_emod]
  rw [Int.add_emod a (b % m) m, Int.emod_emod_of_dvd _ dvd_rfl]

theorem sub_emod_emod_right (a b m : Int) : (a - b % m) % m = (a - b) % m := by
  conv_rhs => rw [Int.sub_emod]
  rw [Int.sub_emod a (b % m) m, Int.emod_emod_of_dvd _ dvd_rfl]

theorem wrapU_add_wrapU (w : Nat) (a b : Int) :
    wrapU w (a + wrapU w b) = wrapU w (a + b) := by
  unfold wrapU
  exact add_emod_emod_right a b _

theorem wrapU_sub_wrapU (w : Nat) (a b : Int) :
    wrapU w (a - wrapU w b) = wrapU w (a - b) := by
  unfold wrapU
  exact sub_emod_emod_right a b _

theorem wrapS_add_wrapS (w : Nat) (a b : Int) :
    wrapS w (a + wrapS w b) = wrapS w (a + b) := by
  unfold wrapS
  have h1 : a + ((b + 2 ^ (w - 1)) % 2 ^ w - 2 ^ (w - 1)) + 2 ^ (w - 1)
      = a + (b + 2 ^ (w - 1)) % 2 ^ w := by ring
  rw [h1, add_emod_emod_right, ← add_assoc]

theorem wrapS_sub_wrapS (w : Nat) (a b : Int) :
    wrapS w (a - wrapS w b) = wrapS w (a - b) := by
  unfold wrapS
  have h1 : a - ((b + 2 ^ (w - 1)) % 2 ^ w - 2 ^ (w - 1)) + 2 ^ (w - 1)
      = a + 2 ^ (w - 1) * 2 - (b + 2 ^ (w - 1)) % 2 ^ w := by ring
  rw [h1, sub_emod_emod_right]
  have h2 : a + 2 ^ (w - 1) * 2 - (b + 2 ^ (w - 1)) = a - b + 2 ^ (w - 1) := by
    ring
  rw [h2]

theorem goIncVal_eq_specIncVal (v : GoValue) (x : Int) :
    goIncVal v x = specIncVal v x := by
  cases v <;>
    simp [goIncVal, specIncVal, wrapS_add_wrapS, wrapU_add_wrapU]

theorem goDecVal_eq_specDecVal (v : GoValue) (x : Int) :
    goDecVal v x = specDecVal v x := by
  cases v <;>
    simp [goDecVal, specDecVal, wrapS_sub_wrapS, wrapU_sub_wrapU]

theorem goIncVal_eq_none_iff (v : GoValue) (x : Int) :
    goIncVal v x = none ↔ v.isIntKind = false := by
  cases v <;> simp [goIncVal, GoValue.isIntKind]

theorem goDecVal_eq_none_iff (v : GoValue) (x : Int) :
    goDecVal v x = none ↔ v.isIntKind = false := by
  cases v <;> simp [goDecVal, GoValue.isIntKind]

/-! ### Lookup lemmas for the embedded map -/

theorem lookup_eq_map (items : List (Nat × Item)) (key : Nat) :
    lookup items key = (items.find? (fun p => p.1 == key)).map Prod.snd := by
  cases h : items.find? (fun p => p.1 == key) <;> simp [lookup, h]

theorem lookup_eq_none_of_not_mem (items : List (Nat × Item)) (key : Nat)
    (h : key ∉ items.map Prod.fst) : lookup items key = none := by
  rw [lookup_eq_map]
  have : items.find? (fun p => p.1 == key) = none := by
    rw [List.find?_eq_none]
    intro p hp
    simp only [beq_iff_eq]
    intro hpk
    exact h (hpk ▸ List.mem_map_of_mem Prod.fst hp)
  simp [this]

theorem lookup_filter (q : Nat × Item → Bool) (items : List (Nat × Item))
    (key : Nat) (hnd : (items.map Prod.fst).Nodup) :
    lookup (items.filter q) key =
      (lookup items key).bind (fun it => if q (key, it) then some it else none) := by
  induction items with
  | nil => rfl
  | cons p rest ih =>
    obtain ⟨k', it'⟩ := p
    simp only [List.map_cons, List.nodup_cons] at hnd
    by_cases hq : q (k', it')
    · by_cases hk : k' = key
      · subst hk
        simp [lookup, List.filter_cons, hq, List.find?_cons_of_pos]
      · have hbeq : (k' == key) = false := by simp [hk]
        simp only [List.filter_cons, hq, if_pos, lookup, List.find?_cons_of_neg,
          hbeq, Bool.false_eq_true, not_false_iff]
        exact ih hnd.2
    · by_cases hk : k' = key
      · subst hk
        have h1 : lookup (rest.filter q) k' = none := by
          apply lookup_eq_none_of_not_mem
          intro hmem
          obtain ⟨p, hp, hpk⟩ := List.mem_map.mp hmem
          exact hnd.1 (hpk ▸ List.mem_map_of_mem Prod.fst (List.mem_of_mem_filter hp))
        have h2 : lookup ((k', it') :: rest) k' = some it' := by
          simp [lookup, List.find?_cons_of_pos]
        simp [List.filter_cons, hq, h1, h2]
      · have hbeq : (k' == key) = false := by simp [hk]
        simp only [List.filter_cons, hq, if_neg, lookup, List.find?_cons_of_neg,
          hbeq, Bool.false_eq_true, not_false_iff]
        exact ih hnd.2

/-- Reading through `DeleteExpired` is invisible: a sweep at any instant `s`
not later than the probe instant `now` does not change what `Get` returns. -/
theorem Get_DeleteExpired (c : Cache) (key : Nat) (now s : Int)
    (hnd : (c.items.map Prod.fst).Nodup) (hs : s ≤ now) :
    (c.DeleteExpired s).Get key now = c.Get key now := by
  have hlf := lookup_filter (fun p => !(p.2.Expired s)) c.items key hnd
  unfold Cache.Get Cache.DeleteExpired
  cases hl : lookup c.items key with
  | none => rw [hlf, hl]; rfl
  | some it =>
    rw [hlf, hl]
    by_cases he : it.Expired s
    · have hnow : it.Expired now = true := by
        unfold Item.Expired at he ⊢
        cases hx : it.expiration with
        | none => rw [hx] at he; simp at he
        | some t =>
          rw [hx] at he
          simp only [decide_eq_true_eq] at he ⊢
          omega
      simp [he, hnow]
    · simp [he]

theorem isIntKind_of_goIncVal_eq_some (v : GoValue) (x : Int) (u : GoValue)
    (h : goIncVal v x = some u) : v.isIntKind = true := by
  cases v <;> simp_all [goIncVal, GoValue.isIntKind]

theorem isIntKind_of_goDecVal_eq_some (v : GoValue) (x : Int) (u : GoValue)
    (h : goDecVal v x = some u) : v.isIntKind = true := by
  cases v <;> simp_all [goDecVal, GoValue.isIntKind]

theorem increment_classify (c : Cache) (key : Nat) (x now : Int) :
    ((c.Increment key x now).1 = some CacheError.notFound ↔
      lookup c.items key = none ∨
        ∃ it, lookup c.items key = some it ∧ it.Expired now = true) ∧
    ((c.Increment key x now).1 = some CacheError.typeError ↔
      ∃ it, lookup c.items key = some it ∧ it.Expired now = false ∧
        it.object.isIntKind = false) ∧
    ((c.Increment key x now).1 = none ↔
      ∃ it, lookup c.items key = some it ∧ it.Expired now = false ∧
        it.object.isIntKind = true) := by
  unfold Cache.Increment
  cases hl : lookup c.items key with
  | none => simp [hl]
  | some it =>
    by_cases he : it.Expired now
    · simp [hl, he]
    · cases hg : goIncVal it.object x with
      | none =>
        have hk := (goIncVal_eq_none_iff it.object x).mp hg
        simp [hl, he, hg, hk]
      | some v =>
        have hk := isIntKind_of_goIncVal_eq_some it.object x v hg
        simp [hl, he, hg, hk]

theorem decrement_classify (c : Cache) (key : Nat) (x now : Int) :
    ((c.Decrement key x now).1 = some CacheError.notFound ↔
      lookup c.items key = none ∨
        ∃ it, lookup c.items key = some it ∧ it.Expired now = true) ∧
    ((c.Decrement key x now).1 = some CacheError.typeError ↔
      ∃ it, lookup c.items key = some it ∧ it.Expired now = false ∧
        it.object.isIntKind = false) ∧
    ((c.Decrement key x now).1 = none ↔
      ∃ it, lookup c.items key = some it ∧ it.Expired now = false ∧
        it.object.isIntKind = true) := by
  unfold Cache.Decrement
  cases hl : lookup c.items key with
  | none => simp [hl]
  | some it =>
    by_cases he : it.Expired now
    · simp [hl, he]
    · cases hg : goDecVal it.object x with
      | none =>
        have hk := (goDecVal_eq_none_iff it.object x).mp hg
        simp [hl, he, hg, hk]
      | some v =>
        have hk := isIntKind_of_goDecVal_eq_some it.object x v hg
        simp [hl, he, hg, hk]

/-! ### Claim theorems about the expiring cache -/

/-- C1 (counterexample to the claim as stated): in the cache holding key `0`
with expiration instant `5`, a probe exactly at instant `5` — an instant at
or after the deadline, which the claim says must return not-found — still
returns the value as found, because `Item.Expired` tests `Expiration` being
strictly before `now`. -/
theorem C1_claimed_boundary_counterexample :
    (5 : Int) ≤ 5 ∧ cacheExp5.Get 0 5 = (some (.vInt 7), true) := by
  decide

/-- C1 (amended): an entry with expiration instant `t` is live — `Get`
returns `(value, true)` — at every probe instant at or *before* `t`, and is
expired — `Get` returns `(nil, false)` — at every probe instant strictly
after `t`; and the result of `Get` is independent of whether `DeleteExpired`
was run at any instant not later than the probe. -/
theorem C1_expiration_boundary (c : Cache) (key : Nat) (it : Item)
    (t now s : Int) (hnd : (c.items.map Prod.fst).Nodup)
    (hl : lookup c.items key = some it) (he : it.expiration = some t)
    (hs : s ≤ now) :
    (now ≤ t → c.Get key now = (some it.object, true)) ∧
    (t < now → c.Get key now = (none, false)) ∧
    (c.DeleteExpired s).Get key now = c.Get key now := by
  have hexp : it.Expired now = decide (t < now) := by
    unfold Item.Expired; rw [he]
  refine ⟨?_, ?_, Get_DeleteExpired c key now s hnd hs⟩
  · intro hle
    unfold Cache.Get
    rw [hl]
    simp [hexp, not_lt_of_le hle]
  · intro hlt
    unfold Cache.Get
    rw [hl]
    simp [hexp, hlt]

theorem C1_expiration_boundary_witness :
    ((cacheExp5.items.map Prod.fst).Nodup ∧
      lookup cacheExp5.items 0 = some itemExp5 ∧
      itemExp5.expiration = some 5 ∧ (2 : Int) ≤ 3) ∧
    (((3 : Int) ≤ 5 → cacheExp5.Get 0 3 = (some itemExp5.object, true)) ∧
      ((5 : Int) < 3 → cacheExp5.Get 0 3 = (none, false)) ∧
      (cacheExp5.DeleteExpired 2).Get 0 3 = cacheExp5.Get 0 3) :=
  ⟨⟨by decide, by decide, by decide, by decide⟩,
    C1_expiration_boundary cacheExp5 0 itemExp5 5 3 2
      (by decide) (by decide) (by decide) (by decide)⟩

/-- C5: `Increment` and `Decrement` fail with the not-found error exactly when
the key is absent or its entry is expired at the call instant, fail with the
type error exactly when the entry is live but holds a non-integer kind, and
succeed exactly when the entry is live and holds one of the recognised
integer kinds. -/
theorem C5_inc_dec_error_classification (c : Cache) (key : Nat)
    (x now : Int) :
    (((c.Increment key x now).1 = some CacheError.notFound ↔
        lookup c.items key = none ∨
          ∃ it, lookup c.items key = some it ∧ it.Expired now = true) ∧
      ((c.Increment key x now).1 = some CacheError.typeError ↔
        ∃ it, lookup c.items key = some it ∧ it.Expired now = false ∧
          it.object.isIntKind = false) ∧
      ((c.Increment key x now).1 = none ↔
        ∃ it, lookup c.items key = some it ∧ it.Expired now = false ∧
          it.object.isIntKind = true)) ∧
    (((c.Decrement key x now).1 = some CacheError.notFound ↔
        lookup c.items key = none ∨
          ∃ it, lookup c.items key = some it ∧ it.Expired now = true) ∧
      ((c.Decrement key x now).1 = some CacheError.typeError ↔
        ∃ it, lookup c.items key = some it ∧ it.Expired now = false ∧
          it.object.isIntKind = false) ∧
      ((c.Decrement key x now).1 = none ↔
        ∃ it, lookup c.items key = some it ∧ it.Expired now = false ∧
          it.object.isIntKind = true)) :=
  ⟨increment_classify c key x now, decrement_classify c key x now⟩

/-- C6: on success, `Increment` (resp. `Decrement`) replaces the stored value
with value plus (resp. minus) the delta computed in the value's original
integer kind with that kind's fixed-width wraparound (`specIncVal` /
`specDecVal` spell out that arithmetic), keeps the entry's expiration
unchanged, and rewrites nothing else in the map. -/
theorem C6_inc_dec_success (c : Cache) (key : Nat) (x now : Int) (it : Item)
    (vi vd : GoValue) (hl : lookup c.items key = some it)
    (he : it.Expired now = false) (hi : specIncVal it.object x = some vi)
    (hd : specDecVal it.object x = some vd) :
    c.Increment key x now =
      (none, ⟨setAssoc c.items key ⟨vi, it.expiration⟩, c.defaultExpiration⟩) ∧
    c.Decrement key x now =
      (none, ⟨setAssoc c.items key ⟨vd, it.expiration⟩, c.defaultExpiration⟩) := by
  constructor
  · unfold Cache.Increment
    rw [hl]
    simp [he, goIncVal_eq_specIncVal, hi]
  · unfold Cache.Decrement
    rw [hl]
    simp [he, goDecVal_eq_specDecVal, hd]

theorem C6_inc_dec_success_witness :
    (lookup cache32.items 0 = some item32 ∧
      item32.Expired 0 = false ∧
      specIncVal item32.object 3 = some (.vInt32 8) ∧
      specDecVal item32.object 3 = some (.vInt32 2)) ∧
    cache32.Increment 0 3 0 =
      (none, ⟨setAssoc cache32.items 0 ⟨.vInt32 8, item32.expiration⟩,
        cache32.defaultExpiration⟩) ∧
    cache32.Decrement 0 3 0 =
      (none, ⟨setAssoc cache32.items 0 ⟨.vInt32 2, item32.expiration⟩,
        cache32.defaultExpiration⟩) :=
  ⟨⟨by decide, by decide, by decide, by decide⟩,
    C6_inc_dec_success cache32 0 3 0 item32 (.vInt32 8) (.vInt32 2)
      (by decide) (by decide) (by decide) (by decide)⟩

/-- C7: `DeleteExpired` at instant `now` keeps exactly the entries not yet
expired at `now`, each with its value and expiration untouched; running it a
second time at the same instant changes nothing, and the default expiration
is untouched as well. -/
theorem C7_delete_expired_exact (c : Cache) (now : Int) :
    (∀ k it, (k, it) ∈ (c.DeleteExpired now).items ↔
      ((k, it) ∈ c.items ∧ it.Expired now = false)) ∧
    (c.DeleteExpired now).DeleteExpired now = c.DeleteExpired now ∧
    (c.DeleteExpired now).defaultExpiration = c.defaultExpiration := by
  refine ⟨?_, ?_, rfl⟩
  · intro k it
    simp [Cache.DeleteExpired, List.mem_filter]
  · simp [Cache.DeleteExpired, List.filter_filter]

/-- C10: whenever `Increment` or `Decrement` returns an error, the cache
state is exactly what it was before the call. -/
theorem C10_error_leaves_state (c : Cache) (key : Nat) (x now : Int) :
    ((c.Increment key x now).1.isSome = true → (c.Increment key x now).2 = c) ∧
    ((c.Decrement key x now).1.isSome = true → (c.Decrement key x now).2 = c) := by
  constructor
  · unfold Cache.Increment
    cases hl : lookup c.items key with
    | none => simp
    | some it =>
      by_cases he : it.Expired now
      · simp [he]
      · cases hg : goIncVal it.object x with
        | none => simp [he, hg]
        | some v => simp [he, hg]
  · unfold Cache.Decrement
    cases hl : lookup c.items key with
    | none => simp
    | some it =>
      by_cases he : it.Expired now
      · simp [he]
      · cases hg : goDecVal it.object x with
        | none => simp [he, hg]
        | some v => simp [he, hg]

theorem C10_error_leaves_state_witness :
    ((cacheEmpty.Increment 0 1 0).1.isSome = true ∧
      (cacheEmpty.Increment 0 1 0).2 = cacheEmpty) ∧
    ((cacheEmpty.Decrement 0 1 0).1.isSome = true ∧
      (cacheEmpty.Decrement 0 1 0).2 = cacheEmpty) :=
  ⟨⟨by decide, (C10_error_leaves_state cacheEmpty 0 1 0).1 (by decide)⟩,
    ⟨by decide, (C10_error_leaves_state cacheEmpty 0 1 0).2 (by decide)⟩⟩

/-! ### List-level helper lemmas for the LRU cache -/

theorem map_fst_eraseKey (k : Nat) (l : List (Nat × Nat)) :
    (eraseKey k l).map Prod.fst = (l.map Prod.fst).erase k := by
  induction l with
  | nil => rfl
  | cons p rest ih =>
    unfold eraseKey at ih ⊢
    by_cases h : p.1 = k
    · simp [List.eraseP_cons, List.erase_cons, h]
    · simp [List.eraseP_cons, List.erase_cons, h, ih]

theorem length_eraseKey_of_mem (k : Nat) (l : List (Nat × Nat))
    (h : k ∈ l.map Prod.fst) : (eraseKey k l).length = l.length - 1 := by
  have hm := congrArg List.length (map_fst_eraseKey k l)
  simp only [List.length_map] at hm
  rw [hm, List.length_erase_of_mem h, List.length_map]

theorem take_append_take {α : Type} (A B : List α) (n : Nat) :
    (A ++ B.take n).take n = (A ++ B).take n := by
  rw [List.take_append_eq_append_take, List.take_append_eq_append_take,
    List.take_take]
  congr 1
  rw [min_eq_left (Nat.sub_le n A.length)]

/-! ### Characterizations of the LRU operations -/

theorem removeOldest_cacheList (c : LRUCache) (hne : c.cacheList ≠ []) :
    c.removeOldestElement.cacheList = c.cacheList.dropLast := by
  unfold LRUCache.removeOldestElement
  cases hgl : c.cacheList.getLast? with
  | none => exact absurd (List.getLast?_eq_none_iff.mp hgl) hne
  | some ent => rfl

theorem maxEntries_removeOldest (c : LRUCache) :
    c.removeOldestElement.maxEntries = c.maxEntries := by
  unfold LRUCache.removeOldestElement
  cases c.cacheList.getLast? <;> rfl

theorem itemsKeys_removeOldest_subset (c : LRUCache) :
    c.removeOldestElement.itemsKeys ⊆ c.itemsKeys := by
  unfold LRUCache.removeOldestElement
  cases c.cacheList.getLast? with
  | none => exact fun a ha => ha
  | some ent => exact fun a ha => List.mem_of_mem_erase ha

/-! ### Preservation of the map/list coherence invariant -/

theorem inv_removeOldestElement (c : LRUCache) (h : LRUInv c) :
    LRUInv c.removeOldestElement := by
  obtain ⟨h1, h2, h3, h4⟩ := h
  unfold LRUCache.removeOldestElement
  cases hgl : c.cacheList.getLast? with
  | none => exact ⟨h1, h2, h3, h4⟩
  | some ent =>
    have hne : c.cacheList ≠ [] := by
      intro he; rw [he] at hgl; simp at hgl
    have hent : ent = c.cacheList.getLast hne := by
      have hgl2 := List.getLast?_eq_getLast c.cacheList hne
      rw [hgl] at hgl2
      exact Option.some.inj hgl2
    have hdec : c.cacheList = c.cacheList.dropLast ++ [ent] := by
      conv_lhs => rw [← List.dropLast_append_getLast hne]
      rw [hent]
    have hmap : c.cacheList.map Prod.fst =
        (c.cacheList.dropLast.map Prod.fst) ++ [ent.1] := by
      conv_lhs => rw [hdec]
      simp
    have h2' : (c.cacheList.dropLast.map Prod.fst).Nodup ∧
        ent.1 ∉ c.cacheList.dropLast.map Prod.fst := by
      rw [hmap] at h2
      have := List.nodup_append.mp h2
      refine ⟨this.1, fun hm => ?_⟩
      exact this.2.2 hm (by simp)
    refine ⟨h1.erase ent.1, h2'.1, ?_, ?_⟩
    · intro k hk
      have hk1 := (List.Nodup.mem_erase_iff h1).mp hk
      have hk2 := h3 k hk1.2
      rw [hmap] at hk2
      rcases List.mem_append.mp hk2 with hA | hE
      · exact hA
      · simp at hE; exact absurd hE hk1.1
    · intro k hk
      refine (List.Nodup.mem_erase_iff h1).mpr
        ⟨?_, h4 k (by rw [hmap]; exact List.mem_append_left _ hk)⟩
      intro he
      rw [he] at hk
      exact h2'.2 hk

theorem inv_moveToFront (c : LRUCache) (k val : Nat)
    (hk : k ∈ c.cacheList.map Prod.fst) (h : LRUInv c) :
    LRUInv { c with cacheList := (k, val) :: eraseKey k c.cacheList } := by
  obtain ⟨h1, h2, h3, h4⟩ := h
  refine ⟨h1, ?_, ?_, ?_⟩
  · simp only [List.map_cons, map_fst_eraseKey]
    refine List.nodup_cons.mpr ⟨fun hmem => ?_, h2.erase k⟩
    exact absurd ((List.Nodup.mem_erase_iff h2).mp hmem).1 (by simp)
  · intro k' hk'
    simp only [List.map_cons, map_fst_eraseKey, List.mem_cons]
    by_cases he : k' = k
    · exact Or.inl he
    · exact Or.inr ((List.Nodup.mem_erase_iff h2).mpr ⟨he, h3 k' hk'⟩)
  · intro k' hk'
    simp only [List.map_cons, map_fst_eraseKey, List.mem_cons] at hk'
    rcases hk' with he | hm
    · rw [he]; exact h4 _ hk
    · exact h4 _ ((List.Nodup.mem_erase_iff h2).mp hm).2

theorem inv_Add (c : LRUCache) (k v : Nat) (h : LRUInv c) :
    LRUInv (c.Add k v) := by
  unfold LRUCache.Add
  by_cases hk : k ∈ c.itemsKeys
  · rw [if_pos hk]
    exact inv_moveToFront c k v (h.2.2.1 k hk) h
  · rw [if_neg hk]
    obtain ⟨h1, h2, h3, h4⟩ := h
    have hknl : k ∉ c.cacheList.map Prod.fst := fun hm => hk (h4 k hm)
    have hinv1 : LRUInv ⟨c.maxEntries, k :: c.itemsKeys,
        (k, v) :: c.cacheList⟩ := by
      refine ⟨List.nodup_cons.mpr ⟨hk, h1⟩, ?_, ?_, ?_⟩
      · simpa using List.nodup_cons.mpr ⟨hknl, h2⟩
      · intro k' hk'
        rcases List.mem_cons.mp hk' with he | hm
        · rw [he]; simp
        · simp only [List.map_cons, List.mem_cons]
          exact Or.inr (h3 k' hm)
      · intro k' hk'
        simp only [List.map_cons, List.mem_cons] at hk'
        rcases hk' with he | hm
        · rw [he]; exact List.mem_cons_self k _
        · exact List.mem_cons_of_mem _ (h4 k' hm)
    split
    · exact inv_removeOldestElement _ hinv1
    · exact hinv1

theorem inv_Get (c : LRUCache) (k : Nat) (h : LRUInv c) :
    LRUInv (c.Get k).2 := by
  unfold LRUCache.Get
  by_cases hk : k ∈ c.itemsKeys
  · rw [if_pos hk]
    cases hf : c.cacheList.find? (fun q => q.1 == k) with
    | none => exact h
    | some p => exact inv_moveToFront c k p.2 (h.2.2.1 k hk) h
  · rw [if_neg hk]
    exact h

theorem inv_Remove (c : LRUCache) (k : Nat) (h : LRUInv c) :
    LRUInv (c.Remove k) := by
  unfold LRUCache.Remove
  by_cases hk : k ∈ c.itemsKeys
  · rw [if_pos hk]
    obtain ⟨h1, h2, h3, h4⟩ := h
    refine ⟨h1.erase k, ?_, ?_, ?_⟩
    · simp only [map_fst_eraseKey]
      exact h2.erase k
    · intro k' hk'
      have hk1 := (List.Nodup.mem_erase_iff h1).mp hk'
      simp only [map_fst_eraseKey]
      exact (List.Nodup.mem_erase_iff h2).mpr ⟨hk1.1, h3 k' hk1.2⟩
    · intro k' hk'
      simp only [map_fst_eraseKey] at hk'
      have hk1 := (List.Nodup.mem_erase_iff h2).mp hk'
      exact (List.Nodup.mem_erase_iff h1).mpr ⟨hk1.1, h4 k' hk1.2⟩
  · rw [if_neg hk]
    exact h

theorem inv_Clear (c : LRUCache) : LRUInv c.Clear := by
  refine ⟨List.nodup_nil, List.nodup_nil, ?_, ?_⟩ <;>
    intro k hk <;> simp [LRUCache.Clear] at hk

theorem inv_SetMaxEntries (c : LRUCache) (m : Int) (h : LRUInv c) :
    LRUInv (c.SetMaxEntries m).2 := by
  unfold LRUCache.SetMaxEntries
  split
  · exact h
  · exact h

/-! ### Field preservation and length bounds for the LRU operations -/

theorem maxEntries_Add (c : LRUCache) (k v : Nat) :
    (c.Add k v).maxEntries = c.maxEntries := by
  unfold LRUCache.Add
  split
  · rfl
  split
  · rw [maxEntries_removeOldest]
  · rfl

theorem maxEntries_Get (c : LRUCache) (k : Nat) :
    ((c.Get k).2).maxEntries = c.maxEntries := by
  unfold LRUCache.Get
  split
  · cases c.cacheList.find? (fun q => q.1 == k) <;> rfl
  · rfl

theorem maxEntries_Remove (c : LRUCache) (k : Nat) :
    (c.Remove k).maxEntries = c.maxEntries := by
  unfold LRUCache.Remove
  split <;> rfl

theorem maxEntries_Clear (c : LRUCache) : c.Clear.maxEntries = c.maxEntries :=
  rfl

theorem length_Add_le (c : LRUCache) (k v : Nat) (h : LRUInv c)
    (hpos : 0 < c.maxEntries)
    (hlen : (c.cacheList.length : Int) ≤ c.maxEntries) :
    ((c.Add k v).cacheList.length : Int) ≤ c.maxEntries := by
  unfold LRUCache.Add
  by_cases hk : k ∈ c.itemsKeys
  · rw [if_pos hk]
    have hm : k ∈ c.cacheList.map Prod.fst := h.2.2.1 k hk
    have hne : c.cacheList ≠ [] := by
      intro he; rw [he] at hm; simp at hm
    have hlp : 0 < c.cacheList.length := List.length_pos.mpr hne
    simp only [List.length_cons, length_eraseKey_of_mem k _ hm]
    omega
  · rw [if_neg hk]
    by_cases hc : 0 < c.maxEntries ∧
        c.maxEntries < ((((k, v) :: c.cacheList).length : Nat) : Int)
    · rw [if_pos hc]
      rw [removeOldest_cacheList _ (by simp)]
      simp only [List.dropLast_cons_of_ne_nil, List.length_dropLast,
        List.length_cons]
      omega
    · rw [if_neg hc]
      push_neg at hc
      have := hc hpos
      simp only [List.length_cons] at this ⊢
      omega

theorem length_Get_le (c : LRUCache) (k : Nat) (h : LRUInv c)
    (hlen : (c.cacheList.length : Int) ≤ c.maxEntries) :
    (((c.Get k).2).cacheList.length : Int) ≤ c.maxEntries := by
  unfold LRUCache.Get
  by_cases hk : k ∈ c.itemsKeys
  · rw [if_pos hk]
    cases hf : c.cacheList.find? (fun q => q.1 == k) with
    | none => exact hlen
    | some p =>
      have hm : k ∈ c.cacheList.map Prod.fst := h.2.2.1 k hk
      have hne : c.cacheList ≠ [] := by
        intro he; rw [he] at hm; simp at hm
      have hlp : 0 < c.cacheList.length := List.length_pos.mpr hne
      simp only [List.length_cons, length_eraseKey_of_mem k _ hm]
      omega
  · rw [if_neg hk]
    exact hlen

theorem length_Remove_le (c : LRUCache) (k : Nat)
    (hlen : (c.cacheList.length : Int) ≤ c.maxEntries) :
    ((c.Remove k).cacheList.length : Int) ≤ c.maxEntries := by
  unfold LRUCache.Remove
  split
  · show ((eraseKey k c.cacheList).length : Int) ≤ c.maxEntries
    have h1 : (eraseKey k c.cacheList).length ≤ c.cacheList.length :=
      (List.eraseP_sublist c.cacheList).length_le
    omega
  · exact hlen

/-- One mutating operation among Add, Get, Remove, Clear keeps coherence, the
capacity field, and the length-within-capacity bound. -/
theorem goodStep (N : Int) (c : LRUCache) (op : LRUOp) (hpos : 0 < N)
    (h1 : LRUInv c) (h2 : c.maxEntries = N)
    (h3 : (c.cacheList.length : Int) ≤ N) :
    LRUInv (applyOp c op) ∧ (applyOp c op).maxEntries = N ∧
      ((applyOp c op).cacheList.length : Int) ≤ N := by
  cases op with
  | add k v =>
    refine ⟨inv_Add c k v h1, ?_, ?_⟩
    · show (c.Add k v).maxEntries = N
      rw [maxEntries_Add, h2]
    · show ((c.Add k v).cacheList.length : Int) ≤ N
      rw [← h2]
      exact length_Add_le c k v h1 (h2 ▸ hpos) (h2 ▸ h3)
  | get k =>
    refine ⟨inv_Get c k h1, ?_, ?_⟩
    · show ((c.Get k).2).maxEntries = N
      rw [maxEntries_Get, h2]
    · show (((c.Get k).2).cacheList.length : Int) ≤ N
      rw [← h2]
      exact length_Get_le c k h1 (h2 ▸ h3)
  | remove k =>
    refine ⟨inv_Remove c k h1, ?_, ?_⟩
    · show (c.Remove k).maxEntries = N
      rw [maxEntries_Remove, h2]
    · show ((c.Remove k).cacheList.length : Int) ≤ N
      rw [← h2]
      exact length_Remove_le c k (h2 ▸ h3)
  | clear =>
    refine ⟨inv_Clear c, h2, ?_⟩
    show ((([] : List (Nat × Nat)).length : Nat) : Int) ≤ N
    simp only [List.length_nil, Nat.cast_zero]
    omega

/-! ### Behaviour of Add on a fresh key, and of Get -/

theorem Add_fresh_cacheList (c : LRUCache) (k v : Nat)
    (hk : k ∉ c.itemsKeys) (hpos : 0 < c.maxEntries)
    (hlen : (c.cacheList.length : Int) ≤ c.maxEntries) :
    (c.Add k v).cacheList = ((k, v) :: c.cacheList).take c.maxEntries.toNat := by
  unfold LRUCache.Add
  rw [if_neg hk]
  by_cases hc : 0 < c.maxEntries ∧
      c.maxEntries < ((((k, v) :: c.cacheList).length : Nat) : Int)
  · rw [if_pos hc]
    rw [removeOldest_cacheList _ (by simp)]
    show ((k, v) :: c.cacheList).dropLast = _
    rw [List.dropLast_eq_take]
    congr 1
    have h2 := hc.2
    simp only [List.length_cons] at h2 ⊢
    omega
  · rw [if_neg hc]
    show (k, v) :: c.cacheList = _
    rw [List.take_of_length_le]
    push_neg at hc
    have := hc hpos
    simp only [List.length_cons] at this ⊢
    omega

theorem itemsKeys_Add_subset (c : LRUCache) (k v : Nat) :
    (c.Add k v).itemsKeys ⊆ k :: c.itemsKeys := by
  unfold LRUCache.Add
  split
  · exact fun a ha => List.mem_cons_of_mem _ ha
  split
  · intro a ha
    exact itemsKeys_removeOldest_subset _ ha
  · exact fun a ha => ha

theorem Get_not_found (c : LRUCache) (k : Nat) (hk : k ∉ c.itemsKeys) :
    (c.Get k).1 = (none, false) := by
  unfold LRUCache.Get
  rw [if_neg hk]

theorem Get_found (c : LRUCache) (k : Nat) (h : LRUInv c)
    (hk : k ∈ c.itemsKeys) : ((c.Get k).1).2 = true := by
  unfold LRUCache.Get
  rw [if_pos hk]
  have hmem := h.2.2.1 k hk
  obtain ⟨p, hp, hpk⟩ := List.mem_map.mp hmem
  cases hf : c.cacheList.find? (fun q => q.1 == k) with
  | none =>
    exfalso
    rw [List.find?_eq_none] at hf
    exact hf p hp (by simp [hpk])
  | some q => simp [hf]

/-- Folding fresh, pairwise-distinct keys through `Add` leaves the recency
list equal to the reversed insertions prepended to the old list, truncated to
capacity; capacity is unchanged and coherence is kept. -/
theorem addAll_fresh (ps : List (Nat × Nat)) (c : LRUCache)
    (hInv : LRUInv c) (hpos : 0 < c.maxEntries)
    (hlen : (c.cacheList.length : Int) ≤ c.maxEntries)
    (hnd : (ps.map Prod.fst).Nodup)
    (hfresh : ∀ p ∈ ps, p.1 ∉ c.itemsKeys) :
    (addAll c ps).maxEntries = c.maxEntries ∧ LRUInv (addAll c ps) ∧
      (addAll c ps).cacheList =
        (ps.reverse ++ c.cacheList).take c.maxEntries.toNat := by
  induction ps generalizing c with
  | nil =>
    refine ⟨rfl, hInv, ?_⟩
    have h1 : c.cacheList.length ≤ c.maxEntries.toNat := by omega
    simp only [addAll, List.foldl_nil, List.reverse_nil, List.nil_append]
    rw [List.take_of_length_le h1]
  | cons p rest ih =>
    have hk : p.1 ∉ c.itemsKeys := hfresh p (List.mem_cons_self p rest)
    have hmax := maxEntries_Add c p.1 p.2
    have hcl := Add_fresh_cacheList c p.1 p.2 hk hpos hlen
    have hInv2 := inv_Add c p.1 p.2 hInv
    have hpos2 : 0 < (c.Add p.1 p.2).maxEntries := by rw [hmax]; exact hpos
    have hlen2 : (((c.Add p.1 p.2).cacheList.length : Nat) : Int)
        ≤ (c.Add p.1 p.2).maxEntries := by
      rw [hmax, hcl]
      have := List.length_take_le c.maxEntries.toNat ((p.1, p.2) :: c.cacheList)
      omega
    have hnd2 : (rest.map Prod.fst).Nodup := by
      simp only [List.map_cons, List.nodup_cons] at hnd
      exact hnd.2
    have hp1 : p.1 ∉ rest.map Prod.fst := by
      simp only [List.map_cons, List.nodup_cons] at hnd
      exact hnd.1
    have hfresh2 : ∀ q ∈ rest, q.1 ∉ (c.Add p.1 p.2).itemsKeys := by
      intro q hq hmem
      rcases List.mem_cons.mp (itemsKeys_Add_subset c p.1 p.2 hmem) with he | hm
      · exact hp1 (he ▸ List.mem_map_of_mem Prod.fst hq)
      · exact hfresh q (List.mem_cons_of_mem _ hq) hm
    have hstep : addAll c (p :: rest) = addAll (c.Add p.1 p.2) rest := rfl
    obtain ⟨ihmax, ihinv, ihcl⟩ :=
      ih (c.Add p.1 p.2) hInv2 hpos2 hlen2 hnd2 hfresh2
    refine ⟨by rw [hstep, ihmax, hmax], by rw [hstep]; exact ihinv, ?_⟩
    rw [hstep, ihcl, hmax, hcl, take_append_take]
    congr 1
    rw [List.reverse_cons, List.append_assoc]
    rfl

/-! ### Claim theorems about the LRU cache -/

theorem inv_fresh (m : Int) : LRUInv ⟨m, [], []⟩ := by
  refine ⟨List.nodup_nil, List.nodup_nil, ?_, ?_⟩ <;> intro k hk <;> simp at hk

/-- Running any sequence of Add/Get/Remove/Clear preserves coherence, the
capacity field, and the length-within-capacity bound. -/
theorem goodRun (N : Int) (ops : List LRUOp) (hpos : 0 < N) :
    ∀ c : LRUCache, LRUInv c → c.maxEntries = N →
      (c.cacheList.length : Int) ≤ N →
      LRUInv (applyOps c ops) ∧ (applyOps c ops).maxEntries = N ∧
        ((applyOps c ops).cacheList.length : Int) ≤ N := by
  induction ops with
  | nil => intro c h1 h2 h3; exact ⟨h1, h2, h3⟩
  | cons op rest ih =>
    intro c h1 h2 h3
    obtain ⟨g1, g2, g3⟩ := goodStep N c op hpos h1 h2 h3
    exact ih (applyOp c op) g1 g2 g3

/-- C2 (counterexample to the claim as stated): starting from a fresh store of
capacity 2, adding keys 0 and 1 and then calling `SetMaxEntries 1` leaves a
store whose capacity 1 is positive yet whose length 2 exceeds it, because
`SetMaxEntries` — one of the mutating operations the claim quantifies over —
never evicts. -/
theorem C2_setMaxEntries_counterexample :
    NewLRU 2 = some lruFresh2 ∧
    0 < (((lruFresh2.Add 0 10).Add 1 11).SetMaxEntries 1).2.maxEntries ∧
    ¬ ((((lruFresh2.Add 0 10).Add 1 11).SetMaxEntries 1).2.Len ≤
        (((lruFresh2.Add 0 10).Add 1 11).SetMaxEntries 1).2.maxEntries) := by
  decide

/-- C2 (amended): for every LRUStore of capacity N > 0, the invariant
`Len <= capacity` holds after every sequence of the mutating operations Add,
Get, Remove and Clear starting from a freshly constructed store; it is
`SetMaxEntries` (excluded here) that can shrink capacity below the current
length without evicting. -/
theorem C2_length_le_capacity (N : Int) (ops : List LRUOp) (c0 : LRUCache)
    (hN : 0 < N) (h0 : NewLRU N = some c0) :
    (applyOps c0 ops).Len ≤ (applyOps c0 ops).maxEntries ∧
      (applyOps c0 ops).maxEntries = N := by
  have hc0 : c0 = ⟨N, [], []⟩ := by
    unfold NewLRU at h0
    rw [if_neg (by omega)] at h0
    exact (Option.some.inj h0).symm
  subst hc0
  obtain ⟨-, g2, g3⟩ :=
    goodRun N ops hN ⟨N, [], []⟩ (inv_fresh N) rfl (by simp; omega)
  refine ⟨?_, g2⟩
  unfold LRUCache.Len
  rw [g2]
  exact g3

theorem C2_length_le_capacity_witness :
    ((0 : Int) < 2 ∧ NewLRU 2 = some lruFresh2) ∧
    ((applyOps lruFresh2
        [.add 0 10, .add 1 11, .get 0, .add 2 12, .remove 1, .clear]).Len ≤
      (applyOps lruFresh2
        [.add 0 10, .add 1 11, .get 0, .add 2 12, .remove 1, .clear]).maxEntries ∧
      (applyOps lruFresh2
        [.add 0 10, .add 1 11, .get 0, .add 2 12, .remove 1, .clear]).maxEntries = 2) :=
  ⟨⟨by decide, by decide⟩,
    C2_length_le_capacity 2
      [.add 0 10, .add 1 11, .get 0, .add 2 12, .remove 1, .clear]
      lruFresh2 (by decide) (by decide)⟩

/-- C8: `SetMaxEntries max` with `max >= 0` succeeds and changes only the
capacity field — it never removes entries, even when the current length
exceeds `max` — and, once the capacity is positive and an `Add` of a fresh
key overflows it, that `Add` evicts exactly the one least-recently-used
entry (the back of the recency list), leaving the length unchanged. -/
theorem C8_lazy_capacity_enforcement (s : LRUCache) (m : Int) (k v : Nat)
    (hm : 0 ≤ m) (hk : k ∉ s.itemsKeys) (hpos : 0 < s.maxEntries)
    (hover : s.maxEntries < (s.cacheList.length : Int) + 1) :
    s.SetMaxEntries m = (true, ⟨m, s.itemsKeys, s.cacheList⟩) ∧
    (s.Add k v).cacheList = ((k, v) :: s.cacheList).dropLast ∧
    (s.Add k v).Len = s.Len := by
  have hset : s.SetMaxEntries m = (true, ⟨m, s.itemsKeys, s.cacheList⟩) := by
    unfold LRUCache.SetMaxEntries
    rw [if_neg (by omega)]
  have hcond : 0 < s.maxEntries ∧
      s.maxEntries < ((((k, v) :: s.cacheList).length : Nat) : Int) := by
    refine ⟨hpos, ?_⟩
    simp only [List.length_cons]
    push_cast
    omega
  have hcl : (s.Add k v).cacheList = ((k, v) :: s.cacheList).dropLast := by
    unfold LRUCache.Add
    rw [if_neg hk, if_pos hcond]
    exact removeOldest_cacheList _ (by simp)
  refine ⟨hset, hcl, ?_⟩
  unfold LRUCache.Len
  rw [hcl]
  simp only [List.length_dropLast, List.length_cons]
  omega

theorem C8_lazy_capacity_enforcement_witness :
    ((0 : Int) ≤ 2 ∧ 7 ∉ lruOne.itemsKeys ∧ 0 < lruOne.maxEntries ∧
      lruOne.maxEntries < (lruOne.cacheList.length : Int) + 1) ∧
    (lruOne.SetMaxEntries 2 = (true, ⟨2, lruOne.itemsKeys, lruOne.cacheList⟩) ∧
      (lruOne.Add 7 70).cacheList = ((7, 70) :: lruOne.cacheList).dropLast ∧
      (lruOne.Add 7 70).Len = lruOne.Len) :=
  ⟨⟨by decide, by decide, by decide, by decide⟩,
    C8_lazy_capacity_enforcement lruOne 2 7 70
      (by decide) (by decide) (by decide) (by decide)⟩

/-- C9: each LRU operation — Add, Get, Remove, Clear, SetMaxEntries, and the
non-mutating Len and DumpKeys trivially — preserves the coherence invariant:
the index map and the recency list hold exactly the same key set, no key
duplicated, so every indexed key identifies the unique list node holding
it. -/
theorem C9_coherence_preserved (s : LRUCache) (k v : Nat) (m : Int)
    (h : LRUInv s) :
    LRUInv (s.Add k v) ∧ LRUInv ((s.Get k).2) ∧ LRUInv (s.Remove k) ∧
      LRUInv s.Clear ∧ LRUInv ((s.SetMaxEntries m).2) :=
  ⟨inv_Add s k v h, inv_Get s k h, inv_Remove s k h, inv_Clear s,
    inv_SetMaxEntries s m h⟩

theorem C9_coherence_preserved_witness :
    LRUInv lruOne ∧
    (LRUInv (lruOne.Add 5 9) ∧ LRUInv ((lruOne.Get 5).2) ∧
      LRUInv (lruOne.Remove 5) ∧ LRUInv lruOne.Clear ∧
      LRUInv ((lruOne.SetMaxEntries 0).2)) :=
  ⟨by decide, C9_coherence_preserved lruOne 5 9 0 (by decide)⟩

/-- C3: filling a fresh store of capacity N > 0 with N+1 Adds of pairwise
distinct keys (and no other operation) leaves exactly N entries, the
first-inserted key absent, and each of the other N keys present. -/
theorem C3_overfill_evicts_first (N : Nat) (k0 v0 : Nat)
    (rest : List (Nat × Nat)) (c0 : LRUCache) (hN : 0 < N)
    (hlen : rest.length = N)
    (hnd : (((k0, v0) :: rest).map Prod.fst).Nodup)
    (h0 : NewLRU (N : Int) = some c0) :
    (addAll c0 ((k0, v0) :: rest)).Len = (N : Int) ∧
    ((addAll c0 ((k0, v0) :: rest)).Get k0).1 = (none, false) ∧
    ∀ p ∈ rest, (((addAll c0 ((k0, v0) :: rest)).Get p.1).1).2 = true := by
  have hc0 : c0 = ⟨(N : Int), [], []⟩ := by
    unfold NewLRU at h0
    rw [if_neg (by omega)] at h0
    exact (Option.some.inj h0).symm
  subst hc0
  obtain ⟨hmax, hinv, hcl⟩ :=
    addAll_fresh ((k0, v0) :: rest) ⟨(N : Int), [], []⟩ (inv_fresh _)
      (by show (0 : Int) < (N : Int); omega) (by simp) hnd
      (by intro p hp; simp)
  have htn : ((N : Int)).toNat = N := by omega
  have hrevlen : rest.reverse.length = N := by simp [hlen]
  have hcl2 : (addAll ⟨(N : Int), [], []⟩ ((k0, v0) :: rest)).cacheList =
      rest.reverse := by
    rw [hcl, htn]
    show (((k0, v0) :: rest).reverse ++ []).take N = rest.reverse
    rw [List.append_nil, List.reverse_cons, ← hrevlen, List.take_left]
  have hkeyiff : ∀ k, k ∈ (addAll ⟨(N : Int), [], []⟩
      ((k0, v0) :: rest)).itemsKeys ↔ k ∈ (rest.map Prod.fst).reverse := by
    intro k
    constructor
    · intro hm
      have := hinv.2.2.1 k hm
      rw [hcl2, List.map_reverse] at this
      exact this
    · intro hm
      refine hinv.2.2.2 k ?_
      rw [hcl2, List.map_reverse]
      exact hm
  have hk0notin : k0 ∉ rest.map Prod.fst := by
    simp only [List.map_cons, List.nodup_cons] at hnd
    exact hnd.1
  refine ⟨?_, ?_, ?_⟩
  · unfold LRUCache.Len
    rw [hcl2, List.length_reverse, hlen]
  · refine Get_not_found _ k0 ?_
    intro hm
    rw [hkeyiff, List.mem_reverse] at hm
    exact hk0notin hm
  · intro p hp
    refine Get_found _ p.1 hinv ?_
    rw [hkeyiff, List.mem_reverse]
    exact List.mem_map_of_mem Prod.fst hp

theorem C3_overfill_evicts_first_witness :
    (0 < 2 ∧ ([(1, 11), (2, 12)] : List (Nat × Nat)).length = 2 ∧
      ((((0, 10) : Nat × Nat) :: [(1, 11), (2, 12)]).map Prod.fst).Nodup ∧
      NewLRU ((2 : Nat) : Int) = some lruFresh2) ∧
    ((addAll lruFresh2 [(0, 10), (1, 11), (2, 12)]).Len = ((2 : Nat) : Int) ∧
      ((addAll lruFresh2 [(0, 10), (1, 11), (2, 12)]).Get 0).1 =
        (none, false) ∧
      ∀ p ∈ ([(1, 11), (2, 12)] : List (Nat × Nat)),
        (((addAll lruFresh2 [(0, 10), (1, 11), (2, 12)]).Get p.1).1).2 =
          true) :=
  ⟨⟨by decide, by decide, by decide, by decide⟩,
    C3_overfill_evicts_first 2 0 10 [(1, 11), (2, 12)] lruFresh2
      (by decide) (by decide) (by decide) (by decide)⟩

theorem Get_hit (s : LRUCache) (k : Nat) (p : Nat × Nat)
    (hk : k ∈ s.itemsKeys)
    (hf : s.cacheList.find? (fun q => q.1 == k) = some p) :
    s.Get k = ((some p.2, true),
      { s with cacheList := (k, p.2) :: eraseKey k s.cacheList }) := by
  unfold LRUCache.Get
  rw [if_pos hk, hf]

theorem notin_of_keys (s : LRUCache) (k : Nat) (h : LRUInv s)
    (hne : k ∉ s.cacheList.map Prod.fst) : k ∉ s.itemsKeys :=
  fun hm => hne (h.2.2.1 k hm)

theorem in_of_keys (s : LRUCache) (k : Nat) (h : LRUInv s)
    (hmem : k ∈ s.cacheList.map Prod.fst) : k ∈ s.itemsKeys :=
  h.2.2.2 k hmem

/-- C4: `Get` promotes.  On a fresh store of capacity 2 with distinct keys
`a`, `b`, `c`: after `Add a; Add b; Add c` the key `a` is absent and `b`, `c`
are present, while after `Add a; Add b; Get a; Add c` the key `b` is absent
and `a`, `c` are present, because the `Get` moved `a` to the front. -/
theorem C4_get_promotes (a b c va vb vc : Nat) (s0 : LRUCache)
    (hab : a ≠ b) (hac : a ≠ c) (hbc : b ≠ c)
    (h0 : NewLRU 2 = some s0) :
    ((((s0.Add a va).Add b vb).Add c vc).Get a).1 = (none, false) ∧
    (((((s0.Add a va).Add b vb).Add c vc).Get b).1).2 = true ∧
    (((((s0.Add a va).Add b vb).Add c vc).Get c).1).2 = true ∧
    (((((s0.Add a va).Add b vb).Get a).2.Add c vc).Get b).1 = (none, false) ∧
    ((((((s0.Add a va).Add b vb).Get a).2.Add c vc).Get a).1).2 = true ∧
    ((((((s0.Add a va).Add b vb).Get a).2.Add c vc).Get c).1).2 = true := by
  have hc0 : s0 = ⟨(2 : Int), [], []⟩ := by
    unfold NewLRU at h0
    rw [if_neg (by omega)] at h0
    exact (Option.some.inj h0).symm
  subst hc0
  set s1 := (⟨(2 : Int), [], []⟩ : LRUCache).Add a va with hs1
  set s2 := s1.Add b vb with hs2
  set s3 := s2.Add c vc with hs3
  set t2 := (s2.Get a).2 with ht2
  set t3 := t2.Add c vc with ht3
  have inv1 : LRUInv s1 := inv_Add _ a va (inv_fresh 2)
  have cl1 : s1.cacheList = [(a, va)] := by
    rw [hs1, Add_fresh_cacheList ⟨(2 : Int), [], []⟩ a va (by simp)
      (by decide) (by decide)]
    rfl
  have max1 : s1.maxEntries = 2 := by rw [hs1, maxEntries_Add]
  have len1 : (s1.cacheList.length : Int) ≤ s1.maxEntries := by
    rw [cl1, max1]; norm_num
  have hb1 : b ∉ s1.itemsKeys :=
    notin_of_keys s1 b inv1 (by rw [cl1]; simp [Ne.symm hab])
  have inv2 : LRUInv s2 := by rw [hs2]; exact inv_Add _ b vb inv1
  have cl2 : s2.cacheList = [(b, vb), (a, va)] := by
    rw [hs2, Add_fresh_cacheList s1 b vb hb1 (by rw [max1]; decide) len1,
      cl1, max1]
    rfl
  have max2 : s2.maxEntries = 2 := by rw [hs2, maxEntries_Add, max1]
  have len2 : (s2.cacheList.length : Int) ≤ s2.maxEntries := by
    rw [cl2, max2]; norm_num
  have hc2 : c ∉ s2.itemsKeys :=
    notin_of_keys s2 c inv2 (by rw [cl2]; simp [Ne.symm hac, Ne.symm hbc])
  have inv3 : LRUInv s3 := by rw [hs3]; exact inv_Add _ c vc inv2
  have cl3 : s3.cacheList = [(c, vc), (b, vb)] := by
    rw [hs3, Add_fresh_cacheList s2 c vc hc2 (by rw [max2]; decide) len2,
      cl2, max2]
    rfl
  have ha3 : a ∉ s3.itemsKeys :=
    notin_of_keys s3 a inv3 (by rw [cl3]; simp [hac, hab])
  have hb3 : b ∈ s3.itemsKeys := in_of_keys s3 b inv3 (by rw [cl3]; simp)
  have hc3 : c ∈ s3.itemsKeys := in_of_keys s3 c inv3 (by rw [cl3]; simp)
  have ha2 : a ∈ s2.itemsKeys := in_of_keys s2 a inv2 (by rw [cl2]; simp)
  have hf2 : s2.cacheList.find? (fun q => q.1 == a) = some (a, va) := by
    rw [cl2, List.find?_cons_of_neg _ (by simp [Ne.symm hab]),
      List.find?_cons_of_pos _ (by simp)]
  have t2eq : t2 = { s2 with cacheList := (a, va) :: eraseKey a s2.cacheList } := by
    rw [ht2, Get_hit s2 a (a, va) ha2 hf2]
  have clT : t2.cacheList = [(a, va), (b, vb)] := by
    rw [t2eq]
    show (a, va) :: eraseKey a s2.cacheList = _
    rw [cl2]
    unfold eraseKey
    simp [List.eraseP_cons, Ne.symm hab]
  have invT : LRUInv t2 := by rw [ht2]; exact inv_Get s2 a inv2
  have maxT : t2.maxEntries = 2 := by rw [t2eq]; exact max2
  have lenT : (t2.cacheList.length : Int) ≤ t2.maxEntries := by
    rw [clT, maxT]; norm_num
  have hcT : c ∉ t2.itemsKeys :=
    notin_of_keys t2 c invT (by rw [clT]; simp [Ne.symm hac, Ne.symm hbc])
  have invF : LRUInv t3 := by rw [ht3]; exact inv_Add t2 c vc invT
  have clF : t3.cacheList = [(c, vc), (a, va)] := by
    rw [ht3, Add_fresh_cacheList t2 c vc hcT (by rw [maxT]; decide) lenT,
      clT, maxT]
    rfl
  have hbF : b ∉ t3.itemsKeys :=
    notin_of_keys t3 b invF (by rw [clF]; simp [hbc, Ne.symm hab])
  have haF : a ∈ t3.itemsKeys := in_of_keys t3 a invF (by rw [clF]; simp)
  have hcF : c ∈ t3.itemsKeys := in_of_keys t3 c invF (by rw [clF]; simp)
  exact ⟨Get_not_found s3 a ha3, Get_found s3 b inv3 hb3,
    Get_found s3 c inv3 hc3, Get_not_found t3 b hbF,
    Get_found t3 a invF haF, Get_found t3 c invF hcF⟩

theorem C4_get_promotes_witness :
    ((0 : Nat) ≠ 1 ∧ (0 : Nat) ≠ 2 ∧ (1 : Nat) ≠ 2 ∧
      NewLRU 2 = some lruFresh2) ∧
    (((((lruFresh2.Add 0 10).Add 1 11).Add 2 12).Get 0).1 = (none, false) ∧
      ((((((lruFresh2.Add 0 10).Add 1 11).Add 2 12).Get 1).1).2 = true) ∧
      ((((((lruFresh2.Add 0 10).Add 1 11).Add 2 12).Get 2).1).2 = true) ∧
      (((((lruFresh2.Add 0 10).Add 1 11).Get 0).2.Add 2 12).Get 1).1 =
        (none, false) ∧
      (((((((lruFresh2.Add 0 10).Add 1 11).Get 0).2.Add 2 12).Get 0).1).2 =
        true) ∧
      (((((((lruFresh2.Add 0 10).Add 1 11).Get 0).2.Add 2 12).Get 2).1).2 =
        true)) :=
  ⟨⟨by decide, by decide, by decide, by decide⟩,
    C4_get_promotes 0 1 2 10 11 12 lruFresh2
      (by decide) (by decide) (by decide) (by decide)⟩

end Unsafecache
